import Mathlib

/-!
Shallow embedding of the trading-backtest core (backtest engine, performance
analyzer, allocation/screening utilities) with proofs about its behaviour.

Python dictionaries are modelled as insertion-ordered association lists
`List (String × α)` with the helpers below; floating-point numbers are
modelled as rationals; `datetime` dates are modelled as integers (days).
Fallible code paths are modelled with `Option`/`Except`.
-/

namespace Backtest

/-- Lookup in an insertion-ordered association list (Python `d[k]` / `k in d`). -/
def dictLookup {α : Type} : List (String × α) → String → Option α
  | [], _ => none
  | p :: rest, k => if p.1 = k then some p.2 else dictLookup rest k

/-- Python `d.get(k, default)`. -/
def dictGet {α : Type} (d : List (String × α)) (k : String) (default : α) : α :=
  (dictLookup d k).getD default

/-- Python `d[k] = v`: replace in place if the key exists, else append. -/
def dictInsert {α : Type} (d : List (String × α)) (k : String) (v : α) :
    List (String × α) :=
  if (dictLookup d k).isSome then
    d.map (fun p => if p.1 = k then (k, v) else p)
  else
    d ++ [(k, v)]

/-- Python `d.values()` as a list. -/
def dictValues {α : Type} (d : List (String × α)) : List α :=
  d.map (·.2)

/-! ### RebalanceScheduler (`BacktestEngine.get_rebalance_dates`) -/

/-- The `frequency_map` dict literal from `BacktestEngine.get_rebalance_dates`. -/
def frequency_map : List (String × ℕ) :=
  [("daily", 1), ("weekly", 7), ("monthly", 30), ("quarterly", 90), ("annually", 365)]

/-- `frequency_map.get(self.strategy.rebalance_frequency, 30)`. -/
def freqDays (frequency : String) : ℕ :=
  dictGet frequency_map frequency 30

/-- The `while current_date <= end_date` accumulation loop of
`get_rebalance_dates`.  In the source `step` is always one of
1/7/30/90/365 or the default 30, hence positive; the `step = 0` branch is
unreachable and only present to make the recursion well founded. -/
def buildDates (endDate : ℤ) (step : ℕ) (current : ℤ) : List ℤ :=
  if h : current ≤ endDate then
    if hs : step = 0 then [current]
    else current :: buildDates endDate step (current + step)
  else []
termination_by (endDate + 1 - current).toNat
decreasing_by omega

/-- `BacktestEngine.get_rebalance_dates`: dates from `start_date` stepping by
the frequency's day count while `current_date <= end_date`. -/
def get_rebalance_dates (frequency : String) (startDate endDate : ℤ) : List ℤ :=
  buildDates endDate (freqDays frequency) startDate

/-! ### PortfolioAllocator -/

/-- `PortfolioAllocator.equal_weight`: the dict comprehension
`{symbol: 1/len(symbols) for symbol in symbols}` (empty input gives `{}`). -/
def equal_weight (symbols : List String) : List (String × ℚ) :=
  if symbols.isEmpty then []
  else
    let weight : ℚ := 1 / symbols.length
    symbols.foldl (fun d s => dictInsert d s weight) []

/-- `PortfolioAllocator.validate_allocation`: drop non-positive weights
(`pd.notna` never fails over ℚ), then renormalize when the remaining total is
positive. -/
def validate_allocation (allocation : List (String × ℚ)) : List (String × ℚ) :=
  if allocation.isEmpty then []
  else
    let valid := allocation.filter (fun p => 0 < p.2)
    if valid.isEmpty then []
    else
      let total := (valid.map (·.2)).sum
      if 0 < total then valid.map (fun p => (p.1, p.2 / total)) else valid

/-- `PortfolioAllocator.market_cap_weight`: collect positive market caps for
the requested symbols from the universe, fall back to equal weight when none
qualify, otherwise normalize by the total cap. -/
def market_cap_weight (symbols : List String) (univ : List (String × ℚ)) :
    List (String × ℚ) :=
  if symbols.isEmpty || univ.isEmpty then equal_weight symbols
  else
    let market_caps := symbols.foldl (fun d s =>
      match dictLookup univ s with
      | some cap => if 0 < cap then dictInsert d s cap else d
      | none => d) []
    if market_caps.isEmpty then equal_weight symbols
    else
      let total := (market_caps.map (·.2)).sum
      market_caps.map (fun p => (p.1, p.2 / total))

/-! ### StockScreener (`by_market_cap`) -/

/-- One step of a stable insertion sort, ordering by the given `le` test. -/
def insertSorted {α : Type} (le : α → α → Bool) (x : α) : List α → List α
  | [] => [x]
  | y :: ys => if le x y then x :: y :: ys else y :: insertSorted le x ys

/-- Stable sort used to model `DataFrame.sort_values`. -/
def sortValues {α : Type} (le : α → α → Bool) (l : List α) : List α :=
  l.foldr (insertSorted le) []

/-- `StockScreener.by_market_cap`: filter by `market_cap >= min_market_cap`,
sort by market cap (`ascending` selects the ordering), keep the first `top_n`
index entries.  The universe is a symbol-indexed frame with a `market_cap`
column, modelled as symbol/cap pairs. -/
def by_market_cap (univ : List (String × ℚ)) (top_n : ℕ)
    (ascending : Bool) (min_market_cap : ℚ) : List String :=
  if univ.isEmpty then []
  else
    let filtered := univ.filter (fun p => min_market_cap ≤ p.2)
    if filtered.isEmpty then []
    else
      let sorted := sortValues
        (fun a b => if ascending then a.2 ≤ b.2 else b.2 ≤ a.2) filtered
      (sorted.take top_n).map (·.1)

/-! ### TradeExecutor (`BacktestEngine._rebalance_portfolio`, execution step) -/

/-- A value stored in a Python trade dict: a date, a string, or a number. -/
inductive TradeVal : Type
  | dt (d : ℤ)
  | str (s : String)
  | num (q : ℚ)
deriving DecidableEq

/-- A trade record is the dict literal built in `_rebalance_portfolio`. -/
def mkTrade (date : ℤ) (symbol : String) (target current : ℚ) :
    List (String × TradeVal) :=
  [("date", .dt date),
   ("symbol", .str symbol),
   ("action", .str (if target > current then "buy" else "sell")),
   ("target_weight", .num target),
   ("current_weight", .num current)]

/-- `symbol in price_data and not price_data[symbol].empty`. -/
def hasPriceData (price_data : List (String × List ℚ)) (symbol : String) : Bool :=
  match dictLookup price_data symbol with
  | some prices => !prices.isEmpty
  | none => false

/-- One iteration of the trade-execution loop of `_rebalance_portfolio`: when
price data is present for the symbol and `|target - current| > threshold`,
append a trade and set `portfolio[symbol] = target_weight`. -/
def execStep (date : ℤ) (price_data : List (String × List ℚ)) (threshold : ℚ)
    (acc : List (List (String × TradeVal)) × List (String × ℚ))
    (item : String × ℚ) :
    List (List (String × TradeVal)) × List (String × ℚ) :=
  if hasPriceData price_data item.1 then
    let current_weight := dictGet acc.2 item.1 0
    if |item.2 - current_weight| > threshold then
      (acc.1 ++ [mkTrade date item.1 item.2 current_weight],
       dictInsert acc.2 item.1 item.2)
    else acc
  else acc

/-- The trade-execution loop of `_rebalance_portfolio`, iterating `execStep`
over `target_allocation.items()` (threshold is the hard-coded 1% in the
source; it is kept as a parameter here). -/
def execTrades (date : ℤ) (price_data : List (String × List ℚ)) (threshold : ℚ)
    (target_allocation : List (String × ℚ)) (portfolio : List (String × ℚ)) :
    List (List (String × TradeVal)) × List (String × ℚ) :=
  target_allocation.foldl (execStep date price_data threshold) ([], portfolio)

/-- `True` on the `Except.error` constructor (a raised Python exception). -/
def isErr {ε α : Type} : Except ε α → Bool
  | .error _ => true
  | .ok _ => false

/-- `BacktestEngine._rebalance_portfolio`: the `try` block runs screening,
signal generation and allocation (each modelled as a fallible computation);
any raised exception is caught and the trades gathered so far (none, since
the strategy calls precede the execution loop) are returned with the
portfolio untouched.  An empty screen result also returns early. -/
def rebalance_portfolio (date : ℤ) (price_data : List (String × List ℚ))
    (portfolio : List (String × ℚ))
    (screen_stocks : Except String (List String))
    (generate_signals : List String → Except String (List (String × ℚ)))
    (allocate_portfolio : List String → List (String × ℚ) →
      List (String × ℚ) → Except String (List (String × ℚ))) :
    List (List (String × TradeVal)) × List (String × ℚ) :=
  match screen_stocks with
  | .error _ => ([], portfolio)
  | .ok selected_stocks =>
    if selected_stocks.isEmpty then ([], portfolio)
    else
      match generate_signals selected_stocks with
      | .error _ => ([], portfolio)
      | .ok signals =>
        match allocate_portfolio selected_stocks signals portfolio with
        | .error _ => ([], portfolio)
        | .ok target_allocation =>
          execTrades date price_data (1/100) target_allocation portfolio

/-! ### PerformanceAnalyzer -/

/-- `Series.pct_change()` with the leading `NaN` dropped (pandas skips it in
the downstream `cumprod`/`min`). -/
def pctChange (values : List ℚ) : List ℚ :=
  List.zipWith (fun prev cur => (cur - prev) / prev) values values.tail

/-- `Series.cumprod()` with running accumulator `acc`. -/
def cumprodFrom (acc : ℚ) : List ℚ → List ℚ
  | [] => []
  | x :: xs => (acc * x) :: cumprodFrom (acc * x) xs

/-- `Series.expanding().max()` with running maximum `m`. -/
def runningMaxFrom (m : ℚ) : List ℚ → List ℚ
  | [] => []
  | x :: xs => max m x :: runningMaxFrom (max m x) xs

/-- `PerformanceAnalyzer._calculate_max_drawdown`: cumulative growth factors,
their running maximum, pointwise drawdown, and its minimum.  A series of
fewer than two points has no defined drawdown (pandas yields `NaN`),
modelled as `none`. -/
def calculate_max_drawdown (values : List ℚ) : Option ℚ :=
  let cumulative := cumprodFrom 1 ((pctChange values).map (fun p => 1 + p))
  let running_max :=
    match cumulative with
    | [] => []
    | c :: cs => c :: runningMaxFrom c cs
  let drawdown := List.zipWith (fun c m => (c - m) / m) cumulative running_max
  match drawdown with
  | [] => none
  | d :: ds => some (ds.foldl min d)

/-- `PerformanceAnalyzer._count_winning_trades`:
`len([t for t in trades if t['action'] == 'SELL'])`. -/
def count_winning_trades (trades : List (List (String × TradeVal))) : ℕ :=
  (trades.filter (fun t => dictLookup t "action" = some (.str "SELL"))).length

/-- The `win_rate` entry of `PerformanceAnalyzer.calculate_metrics`:
`winning_trades / total_trades` when the ledger is non-empty, else 0. -/
def win_rate (trades : List (List (String × TradeVal))) : ℚ :=
  if trades.length > 0 then
    (count_winning_trades trades : ℚ) / (trades.length : ℚ)
  else 0

/-! ### BaseStrategy (`get_price_data`, `get_returns`) -/

/-- `BaseStrategy.get_price_data`: the symbol's frame restricted to rows with
index `<= date` (all rows when `date is None`); an unknown symbol yields an
empty frame.  A frame is a list of (date, close) rows. -/
def get_price_data (price_data : List (String × List (ℤ × ℚ)))
    (symbol : String) (date : Option ℤ) : List (ℤ × ℚ) :=
  match dictLookup price_data symbol with
  | none => []
  | some data =>
    match date with
    | none => data
    | some d => data.filter (fun row => row.1 ≤ d)

/-- `data['close'].iloc[-1]` (the guard in `get_returns` keeps it in range). -/
def lastClose (data : List (ℤ × ℚ)) : ℚ :=
  ((data.map (·.2)).getLast?).getD 0

/-- `data['close'].iloc[-(periods + 1)]` (in range under the same guard). -/
def pastClose (data : List (ℤ × ℚ)) (periods : ℕ) : ℚ :=
  ((data.map (·.2)).get? (data.length - (periods + 1))).getD 0

/-- `BaseStrategy.get_returns`: 0.0 when fewer than `periods + 1` rows are
available up to `date`; otherwise `(current - past) / past`, with the
`ZeroDivisionError` handler returning 0.0 when the past price is zero. -/
def get_returns (price_data : List (String × List (ℤ × ℚ))) (symbol : String)
    (periods : ℕ) (date : Option ℤ) : ℚ :=
  let data := get_price_data price_data symbol date
  if data.length < periods + 1 then 0
  else
    let current_price := lastClose data
    let past_price := pastClose data periods
    if past_price = 0 then 0 else (current_price - past_price) / past_price

/-! ## Shared lemmas -/

theorem dictLookup_append {α : Type} (d₁ d₂ : List (String × α)) (k : String) :
    dictLookup (d₁ ++ d₂) k =
      match dictLookup d₁ k with
      | some v => some v
      | none => dictLookup d₂ k := by
  induction d₁ with
  | nil => simp [dictLookup]
  | cons p rest ih =>
    by_cases h : p.1 = k <;> simp [dictLookup, h, ih]

theorem dictLookup_map_update {α : Type} (d : List (String × α)) (k k' : String)
    (v : α) (h : k' ≠ k) :
    dictLookup (d.map (fun p => if p.1 = k then (k, v) else p)) k'
      = dictLookup d k' := by
  induction d with
  | nil => simp [dictLookup]
  | cons p rest ih =>
    have hkk : ¬ (k = k') := fun e => h e.symm
    by_cases hp : p.1 = k
    · simp [dictLookup, hp, hkk, ih]
    · simp [dictLookup, hp, ih]

theorem dictLookup_insert_ne {α : Type} (d : List (String × α)) (k k' : String)
    (v : α) (h : k' ≠ k) : dictLookup (dictInsert d k v) k' = dictLookup d k' := by
  have hkk : ¬ (k = k') := fun e => h e.symm
  unfold dictInsert
  split
  · exact dictLookup_map_update d k k' v h
  · rw [dictLookup_append]
    cases hd : dictLookup d k' <;> simp [hd, dictLookup, hkk]

theorem dictGet_insert_ne {α : Type} (d : List (String × α)) (k k' : String)
    (v default : α) (h : k' ≠ k) :
    dictGet (dictInsert d k v) k' default = dictGet d k' default := by
  simp [dictGet, dictLookup_insert_ne d k k' v h]

theorem dictInsert_fresh {α : Type} (d : List (String × α)) (k : String) (v : α)
    (h : dictLookup d k = none) : dictInsert d k v = d ++ [(k, v)] := by
  simp [dictInsert, h]

/-! ## C1: unknown rebalance frequency -/

/-- C1 counterexample: the frequency name "bogus" is not in `frequency_map`,
yet `get_rebalance_dates` does not fail — it silently produces the same
30-day (monthly) schedule as the "monthly" frequency, refuting the claim
that unknown frequency names fail with a `ConfigurationError`. -/
theorem C1_unknown_frequency_counterexample :
    dictLookup frequency_map "bogus" = none ∧
      get_rebalance_dates "bogus" 0 100 = [0, 30, 60, 90] ∧
      get_rebalance_dates "bogus" 0 100 = get_rebalance_dates "monthly" 0 100 := by
  refine ⟨by decide, ?_, ?_⟩
  · have h : freqDays "bogus" = 30 := by decide
    rw [get_rebalance_dates, h]
    rw [buildDates]; norm_num
    rw [buildDates]; norm_num
    rw [buildDates]; norm_num
    rw [buildDates]; norm_num
    rw [buildDates]; norm_num
  · have h : freqDays "bogus" = freqDays "monthly" := by decide
    rw [get_rebalance_dates, get_rebalance_dates, h]

/-- C1 (amended): for every frequency name not in the frequency table,
`get_rebalance_dates` silently falls back to the 30-day step, producing
exactly the schedule of the "monthly" frequency (no error is raised). -/
theorem C1_unknown_frequency_defaults_to_monthly (frequency : String)
    (h : dictLookup frequency_map frequency = none)
    (startDate endDate : ℤ) :
    get_rebalance_dates frequency startDate endDate =
      get_rebalance_dates "monthly" startDate endDate := by
  have h30 : freqDays frequency = 30 := by simp [freqDays, dictGet, h]
  have hm : freqDays "monthly" = 30 := by decide
  rw [get_rebalance_dates, get_rebalance_dates, h30, hm]

/-- C1 witness: the amended theorem applied at the unknown name "bogus". -/
theorem C1_witness :
    get_rebalance_dates "bogus" (-5) 40 = get_rebalance_dates "monthly" (-5) 40 :=
  C1_unknown_frequency_defaults_to_monthly "bogus" (by decide) (-5) 40

/-! ## C7: equal-weight allocation -/

theorem foldl_dictInsert_fresh (w : ℚ) :
    ∀ (symbols : List String) (d : List (String × ℚ)),
      symbols.Nodup → (∀ s ∈ symbols, dictLookup d s = none) →
      symbols.foldl (fun d s => dictInsert d s w) d
        = d ++ symbols.map (fun s => (s, w)) := by
  intro symbols
  induction symbols with
  | nil => simp
  | cons s rest ih =>
    intro d hnd hfresh
    have hd : dictLookup d s = none := hfresh s (by simp)
    rw [List.foldl_cons, dictInsert_fresh d s w hd]
    have hfresh' : ∀ t ∈ rest, dictLookup (d ++ [(s, w)]) t = none := by
      intro t ht
      rw [dictLookup_append]
      have h1 : dictLookup d t = none := hfresh t (by simp [ht])
      have hts : ¬ (s = t) := by
        intro e
        exact (List.nodup_cons.mp hnd).1 (by rw [e]; exact ht)
      simp [h1, dictLookup, hts]
    rw [ih (d ++ [(s, w)]) (List.nodup_cons.mp hnd).2 hfresh', List.append_assoc]
    simp

/-- For a duplicate-free symbol list, the dict comprehension of `equal_weight`
is just the list of (symbol, 1/n) pairs. -/
theorem equal_weight_nodup (symbols : List String) (hne : ¬ symbols.isEmpty)
    (hnd : symbols.Nodup) :
    equal_weight symbols
      = symbols.map (fun s => (s, (1 : ℚ) / symbols.length)) := by
  rw [equal_weight, if_neg (by simp [hne])]
  exact foldl_dictInsert_fresh _ symbols [] hnd (by simp [dictLookup])

/-- C7 counterexample: on the duplicated list `["A", "A"]`, `equal_weight`
computes `1/len = 1/2` per symbol but the dict comprehension collapses the
duplicate key, so the returned weights sum to `1/2`, not 1 (and not within
`1e-9` of 1), refuting the claim for arbitrary symbol lists. -/
theorem C7_duplicate_symbols_counterexample :
    equal_weight ["A", "A"] = [("A", 1/2)] ∧
      (dictValues (equal_weight ["A", "A"])).sum = 1/2 ∧
      ¬ |(dictValues (equal_weight ["A", "A"])).sum - 1| ≤ 1/1000000000 := by
  have h : equal_weight ["A", "A"] = [("A", 1/2)] := by
    norm_num [equal_weight, dictInsert, dictLookup]
  have habs : |(1 : ℚ)/2 - 1| = 1/2 := by
    rw [abs_of_nonpos] <;> norm_num
  refine ⟨h, ?_, ?_⟩ <;> rw [h] <;> simp only [dictValues, List.map_cons,
    List.map_nil, List.sum_cons, List.sum_nil, add_zero]
  rw [habs]; norm_num

/-- C7 (amended): for the empty list `equal_weight` returns the empty mapping
without failing, and for every non-empty list of distinct symbols it assigns
each symbol the weight `1/n`, so the weights sum to exactly 1 (hence within
`1e-9`). -/
theorem C7_equal_weight_sums_to_one (symbols : List String) :
    (symbols.isEmpty → equal_weight symbols = []) ∧
    (¬ symbols.isEmpty → symbols.Nodup →
      (∀ p ∈ equal_weight symbols, p.2 = 1 / (symbols.length : ℚ)) ∧
        (dictValues (equal_weight symbols)).sum = 1) := by
  constructor
  · intro he
    simp [equal_weight, he]
  · intro hne hnd
    rw [equal_weight_nodup symbols hne hnd]
    constructor
    · intro p hp
      obtain ⟨s, _, rfl⟩ := List.mem_map.mp hp
      rfl
    · have h0 : symbols ≠ [] := by simpa [List.isEmpty_iff] using hne
      have hlen : symbols.length ≠ 0 := fun h => h0 (List.length_eq_zero.mp h)
      have hlenQ : (symbols.length : ℚ) ≠ 0 := Nat.cast_ne_zero.mpr hlen
      simp only [dictValues, List.map_map]
      have hcomp : ((fun (p : String × ℚ) => p.2) ∘
          fun s => (s, (1 : ℚ) / symbols.length))
            = fun _ => (1 : ℚ) / symbols.length := rfl
      rw [hcomp, List.map_const', List.sum_replicate, nsmul_eq_mul]
      field_simp

/-- C7 witness: the amended theorem applied to `["A", "B"]` and `[]`. -/
theorem C7_witness :
    equal_weight [] = [] ∧
      (dictValues (equal_weight ["A", "B"])).sum = 1 :=
  ⟨(C7_equal_weight_sums_to_one []).1 (by decide),
   ((C7_equal_weight_sums_to_one ["A", "B"]).2 (by decide) (by decide)).2⟩

/-! ## C8: validate_allocation round-trip -/

/-- C8: `validate_allocation` is the identity on an allocation whose weights
are all strictly positive and sum to 1 (over ℚ the `pd.notna` check never
fires, and the renormalization divides by a total of exactly 1). -/
theorem C8_validate_allocation_roundtrip (allocation : List (String × ℚ))
    (hpos : ∀ p ∈ allocation, 0 < p.2)
    (hsum : (allocation.map (·.2)).sum = 1) :
    validate_allocation allocation = allocation := by
  have h0 : allocation ≠ [] := by rintro rfl; simp at hsum
  have hne : allocation.isEmpty = false := by
    cases allocation with
    | nil => exact absurd rfl h0
    | cons p rest => rfl
  have hfilter : List.filter (fun p => decide (0 < p.2)) allocation = allocation :=
    List.filter_eq_self.mpr (fun p hp => by simpa using hpos p hp)
  simp only [validate_allocation, hne, Bool.false_eq_true, if_false, hfilter,
    hsum, zero_lt_one, if_true, div_one]
  simp

/-- C8 witness: the round-trip theorem applied to `{A: 1/2, B: 1/2}`. -/
theorem C8_witness :
    validate_allocation [("A", 1/2), ("B", 1/2)] = [("A", 1/2), ("B", 1/2)] :=
  C8_validate_allocation_roundtrip [("A", 1/2), ("B", 1/2)]
    (by intro p hp; simp at hp; rcases hp with rfl | rfl <;> norm_num)
    (by norm_num)

/-! ## C2 and C3: the trade-execution loop -/

theorem execStep_noop (date : ℤ) (pd : List (String × List ℚ)) (thr : ℚ)
    (hthr : 0 ≤ thr)
    (acc : List (List (String × TradeVal)) × List (String × ℚ))
    (item : String × ℚ) (h : item.2 = dictGet acc.2 item.1 0) :
    execStep date pd thr acc item = acc := by
  unfold execStep
  split
  · have hcond : ¬ (|item.2 - dictGet acc.2 item.1 0| > thr) := by
      rw [← h, sub_self, abs_zero]
      exact not_lt.mpr hthr
    simp [hcond]
  · rfl

theorem foldl_execStep_fix (date : ℤ) (pd : List (String × List ℚ)) (thr : ℚ)
    (hthr : 0 ≤ thr) :
    ∀ (alloc : List (String × ℚ))
      (acc : List (List (String × TradeVal)) × List (String × ℚ)),
      (∀ p ∈ alloc, p.2 = dictGet acc.2 p.1 0) →
      alloc.foldl (execStep date pd thr) acc = acc := by
  intro alloc
  induction alloc with
  | nil => intro acc _; rfl
  | cons p rest ih =>
    intro acc hacc
    rw [List.foldl_cons,
      execStep_noop date pd thr hthr acc p (hacc p (List.mem_cons_self p rest))]
    exact ih acc (fun q hq => hacc q (List.mem_cons_of_mem p hq))

/-- C2: when every target weight equals the current portfolio weight
(`portfolio.get(symbol, 0)`), the execution step with the source's 1%
threshold emits no trades and returns the portfolio unchanged. -/
theorem C2_same_target_zero_trades (date : ℤ) (pd : List (String × List ℚ))
    (target_allocation portfolio : List (String × ℚ))
    (h : ∀ p ∈ target_allocation, p.2 = dictGet portfolio p.1 0) :
    execTrades date pd (1/100) target_allocation portfolio = ([], portfolio) := by
  unfold execTrades
  exact foldl_execStep_fix date pd (1/100) (by norm_num) target_allocation
    ([], portfolio) h

/-- C2 witness: the idempotence theorem applied to a one-symbol portfolio. -/
theorem C2_witness :
    execTrades 0 [("A", [10])] (1/100) [("A", 1/2)] [("A", 1/2)]
      = ([], [("A", 1/2)]) :=
  C2_same_target_zero_trades 0 [("A", [10])] [("A", 1/2)] [("A", 1/2)]
    (by intro p hp; simp at hp; rcases hp with rfl; simp [dictGet, dictLookup])

theorem foldl_execStep_append (date : ℤ) (pd : List (String × List ℚ)) (thr : ℚ) :
    ∀ (alloc : List (String × ℚ)) (trades : List (List (String × TradeVal)))
      (port : List (String × ℚ)),
      alloc.foldl (execStep date pd thr) (trades, port)
        = (trades ++ (alloc.foldl (execStep date pd thr) ([], port)).1,
           (alloc.foldl (execStep date pd thr) ([], port)).2) := by
  intro alloc
  induction alloc with
  | nil => intro trades port; simp
  | cons p rest ih =>
    intro trades port
    rw [List.foldl_cons, List.foldl_cons]
    by_cases h1 : hasPriceData pd p.1
    · by_cases h2 : |p.2 - dictGet port p.1 0| > thr
      · simp only [execStep, h1, if_true, h2, List.nil_append]
        rw [ih (trades ++ [mkTrade date p.1 p.2 (dictGet port p.1 0)])
              (dictInsert port p.1 p.2),
            ih [mkTrade date p.1 p.2 (dictGet port p.1 0)]
              (dictInsert port p.1 p.2)]
        simp
      · simp only [execStep, h1, if_true, h2, if_false]
        exact ih trades port
    · simp only [execStep, h1, if_false]
      exact ih trades port

theorem foldl_execStep_mem (date : ℤ) (pd : List (String × List ℚ)) (thr : ℚ) :
    ∀ (alloc : List (String × ℚ)) (port : List (String × ℚ)),
      (alloc.map Prod.fst).Nodup →
      ∀ sym tw, (sym, tw) ∈ alloc → hasPriceData pd sym = true →
      |tw - dictGet port sym 0| > thr →
      mkTrade date sym tw (dictGet port sym 0)
        ∈ (alloc.foldl (execStep date pd thr) ([], port)).1 := by
  intro alloc
  induction alloc with
  | nil =>
    intro port _ sym tw hmem
    exact absurd hmem (by simp)
  | cons p rest ih =>
    intro port hnd sym tw hmem hprice hgap
    rw [List.foldl_cons]
    rcases List.mem_cons.mp hmem with heq | hmem'
    · cases heq
      simp only [execStep, hprice, if_true, hgap]
      rw [foldl_execStep_append]
      exact List.mem_append_left _ (List.mem_singleton.mpr rfl)
    · have hsym_rest : sym ∈ rest.map Prod.fst :=
        List.mem_map.mpr ⟨(sym, tw), hmem', rfl⟩
      have hne : sym ≠ p.1 := by
        intro e
        exact (List.nodup_cons.mp hnd).1 (by rw [← e]; exact hsym_rest)
      have hnd' : (rest.map Prod.fst).Nodup := (List.nodup_cons.mp hnd).2
      by_cases h1 : hasPriceData pd p.1
      · by_cases h2 : |p.2 - dictGet port p.1 0| > thr
        · simp only [execStep, h1, if_true, h2]
          have hget : dictGet (dictInsert port p.1 p.2) sym 0 = dictGet port sym 0 :=
            dictGet_insert_ne port p.1 sym p.2 0 hne
          rw [foldl_execStep_append]
          refine List.mem_append_right _ ?_
          have := ih (dictInsert port p.1 p.2) hnd' sym tw hmem' hprice
            (by rw [hget]; exact hgap)
          rw [hget] at this
          exact this
        · simp only [execStep, h1, if_true, h2, if_false]
          exact ih port hnd' sym tw hmem' hprice hgap
      · simp only [execStep, h1, if_false]
        exact ih port hnd' sym tw hmem' hprice hgap

/-- C3 counterexample: rebalancing an empty portfolio to `{A: 1/2}` (with
price data for `A` and the source's 1% threshold) emits exactly one trade,
and that trade record has no `commission_cost` field at all — the executor
neither computes commissions nor slippage, refuting the claim. -/
theorem C3_no_commission_field_counterexample :
    (execTrades 0 [("A", [10])] (1/100) [("A", 1/2)] []).1
        = [mkTrade 0 "A" (1/2) 0] ∧
      dictLookup (mkTrade 0 "A" (1/2) 0) "commission_cost" = none := by
  constructor
  · have habs : (1 : ℚ)/100 < |1/2| := by
      rw [abs_of_pos] <;> norm_num
    simp only [execTrades, List.foldl_cons, List.foldl_nil, execStep,
      hasPriceData, dictLookup, dictGet, Option.getD]
    norm_num [habs]
  · simp [mkTrade, dictLookup]

/-- C3 (amended): for every symbol (with available price data) whose target
weight differs from its current weight by more than the threshold, the
executor emits the trade record built by `mkTrade`: its `action` is `buy`
if target > current and `sell` otherwise, it stores the target and previous
weights, and it carries no `commission_cost` field (no commission or
slippage is applied). -/
theorem C3_trade_record_contents (date : ℤ) (pd : List (String × List ℚ))
    (thr : ℚ) (alloc port : List (String × ℚ)) (sym : String) (tw : ℚ)
    (hnd : (alloc.map Prod.fst).Nodup) (hmem : (sym, tw) ∈ alloc)
    (hprice : hasPriceData pd sym = true)
    (hgap : |tw - dictGet port sym 0| > thr) :
    mkTrade date sym tw (dictGet port sym 0)
        ∈ (execTrades date pd thr alloc port).1 ∧
      dictLookup (mkTrade date sym tw (dictGet port sym 0)) "action"
        = some (.str (if tw > dictGet port sym 0 then "buy" else "sell")) ∧
      dictLookup (mkTrade date sym tw (dictGet port sym 0)) "target_weight"
        = some (.num tw) ∧
      dictLookup (mkTrade date sym tw (dictGet port sym 0)) "current_weight"
        = some (.num (dictGet port sym 0)) ∧
      dictLookup (mkTrade date sym tw (dictGet port sym 0)) "commission_cost"
        = none := by
  refine ⟨?_, ?_, ?_, ?_, ?_⟩
  · exact foldl_execStep_mem date pd thr alloc port hnd sym tw hmem hprice hgap
  all_goals simp [mkTrade, dictLookup]

/-- C3 witness: the amended theorem applied to the single-trade scenario. -/
theorem C3_witness :
    mkTrade 0 "A" (1/2) (dictGet [] "A" 0)
        ∈ (execTrades 0 [("A", [10])] (1/100) [("A", 1/2)] []).1 ∧
      dictLookup (mkTrade 0 "A" (1/2) (dictGet [] "A" 0)) "commission_cost"
        = none :=
  have h := C3_trade_record_contents 0 [("A", [10])] (1/100) [("A", 1/2)] []
    "A" (1/2) (by simp) (by simp)
    (by simp [hasPriceData, dictLookup])
    (by simp [dictGet, dictLookup]; rw [abs_of_pos] <;> norm_num)
  ⟨h.1, h.2.2.2.2⟩

/-! ## C6: per-date exceptions are caught -/

/-- C6: if screening raises, or screening succeeds and signal generation
raises, or both succeed and allocation raises, then `_rebalance_portfolio`
returns an empty trade list and the portfolio exactly as it was — the
exception is swallowed by the `except` handler and does not propagate. -/
theorem C6_exception_means_no_rebalance (date : ℤ)
    (price_data : List (String × List ℚ)) (portfolio : List (String × ℚ))
    (screen_stocks : Except String (List String))
    (generate_signals : List String → Except String (List (String × ℚ)))
    (allocate_portfolio : List String → List (String × ℚ) →
      List (String × ℚ) → Except String (List (String × ℚ)))
    (h : isErr screen_stocks = true ∨
      ∃ sel, screen_stocks = .ok sel ∧
        (isErr (generate_signals sel) = true ∨
          ∃ sg, generate_signals sel = .ok sg ∧
            isErr (allocate_portfolio sel sg portfolio) = true)) :
    rebalance_portfolio date price_data portfolio screen_stocks
      generate_signals allocate_portfolio = ([], portfolio) := by
  rcases h with h | ⟨sel, rfl, h⟩
  · cases screen_stocks with
    | error e => rfl
    | ok _ => simp [isErr] at h
  · by_cases hsel : sel.isEmpty
    · simp [rebalance_portfolio, hsel]
    · rcases h with h | ⟨sg, hsg, h⟩
      · cases hsig : generate_signals sel with
        | error e => simp [rebalance_portfolio, hsel, hsig]
        | ok _ => rw [hsig] at h; simp [isErr] at h
      · cases hal : allocate_portfolio sel sg portfolio with
        | error e => simp [rebalance_portfolio, hsel, hsg, hal]
        | ok _ => rw [hal] at h; simp [isErr] at h

/-- C6 witness: a raising screen leaves a one-symbol portfolio untouched. -/
theorem C6_witness :
    rebalance_portfolio 0 [("A", [10])] [("A", 1/2)] (.error "boom")
      (fun _ => .ok []) (fun _ _ _ => .ok []) = ([], [("A", 1/2)]) :=
  C6_exception_means_no_rebalance 0 [("A", [10])] [("A", 1/2)] (.error "boom")
    (fun _ => .ok []) (fun _ _ _ => .ok []) (Or.inl rfl)

/-! ## C10: get_returns never raises -/

/-- C10: `get_returns` returns 0 when fewer than `periods + 1` price rows are
available up to the given date, returns 0 when the past price is zero (the
`ZeroDivisionError` handler), and otherwise returns
`(current_price - past_price) / past_price`. -/
theorem C10_get_returns_total (price_data : List (String × List (ℤ × ℚ)))
    (symbol : String) (periods : ℕ) (date : Option ℤ) :
    ((get_price_data price_data symbol date).length < periods + 1 →
      get_returns price_data symbol periods date = 0) ∧
    (periods + 1 ≤ (get_price_data price_data symbol date).length →
      pastClose (get_price_data price_data symbol date) periods = 0 →
      get_returns price_data symbol periods date = 0) ∧
    (periods + 1 ≤ (get_price_data price_data symbol date).length →
      pastClose (get_price_data price_data symbol date) periods ≠ 0 →
      get_returns price_data symbol periods date =
        (lastClose (get_price_data price_data symbol date) -
            pastClose (get_price_data price_data symbol date) periods) /
          pastClose (get_price_data price_data symbol date) periods) := by
  refine ⟨?_, ?_, ?_⟩
  · intro h
    simp only [get_returns]
    rw [if_pos h]
  · intro h1 h2
    simp only [get_returns]
    rw [if_neg (Nat.not_lt.mpr h1), if_pos h2]
  · intro h1 h2
    simp only [get_returns]
    rw [if_neg (Nat.not_lt.mpr h1), if_neg h2]

/-- C10 witness: the theorem applied to a two-row price store, in the
insufficient-history branch and in the normal branch. -/
theorem C10_witness :
    get_returns [("A", [(0, 10), (1, 12)])] "A" 5 none = 0 ∧
      get_returns [("A", [(0, 10), (1, 12)])] "A" 1 none = 1/5 := by
  constructor
  · exact (C10_get_returns_total [("A", [(0, 10), (1, 12)])] "A" 5 none).1
      (by simp [get_price_data, dictLookup])
  · rw [(C10_get_returns_total [("A", [(0, 10), (1, 12)])] "A" 1 none).2.2
      (by simp [get_price_data, dictLookup])
      (by norm_num [get_price_data, dictLookup, pastClose])]
    norm_num [get_price_data, dictLookup, pastClose, lastClose]

/-! ## C4: maximum drawdown -/

theorem foldl_min_le (l : List ℚ) : ∀ a : ℚ, l.foldl min a ≤ a := by
  induction l with
  | nil => intro a; exact le_refl a
  | cons x xs ih =>
    intro a
    rw [List.foldl_cons]
    exact le_trans (ih (min a x)) (min_le_left a x)

theorem foldl_min_zeros (l : List ℚ) (h : ∀ x ∈ l, x = 0) :
    l.foldl min 0 = 0 := by
  induction l with
  | nil => rfl
  | cons x xs ih =>
    rw [List.foldl_cons, h x (List.mem_cons_self x xs), min_self]
    exact ih (fun y hy => h y (List.mem_cons_of_mem x hy))

theorem zipWith_drawdown_self (l : List ℚ) :
    ∀ x ∈ List.zipWith (fun c m => (c - m) / m) l l, x = 0 := by
  induction l with
  | nil => simp
  | cons y ys ih =>
    intro x hx
    rw [List.zipWith_cons_cons] at hx
    rcases List.mem_cons.mp hx with rfl | hx'
    · rw [sub_self, zero_div]
    · exact ih x hx'

theorem cumprodFrom_chain :
    ∀ (l : List ℚ) (acc : ℚ), 0 < acc → (∀ x ∈ l, 1 ≤ x) →
      List.Chain' (· ≤ ·) (acc :: cumprodFrom acc l) := by
  intro l
  induction l with
  | nil => intro acc _ _; simp [cumprodFrom]
  | cons x xs ih =>
    intro acc hacc hge
    have hx : (1 : ℚ) ≤ x := hge x (List.mem_cons_self x xs)
    have hpos : 0 < acc * x := mul_pos hacc (lt_of_lt_of_le one_pos hx)
    have hle : acc ≤ acc * x := le_mul_of_one_le_right (le_of_lt hacc) hx
    rw [cumprodFrom]
    exact List.chain'_cons.mpr
      ⟨hle, ih (acc * x) hpos (fun y hy => hge y (List.mem_cons_of_mem x hy))⟩

theorem runningMaxFrom_chain :
    ∀ (l : List ℚ) (m : ℚ), List.Chain' (· ≤ ·) (m :: l) →
      runningMaxFrom m l = l := by
  intro l
  induction l with
  | nil => intro m _; rfl
  | cons x xs ih =>
    intro m hchain
    obtain ⟨hmx, hchain'⟩ := List.chain'_cons.mp hchain
    rw [runningMaxFrom, max_eq_right hmx, ih x hchain']

theorem pctChange_nonneg :
    ∀ (values : List ℚ), (∀ v ∈ values, 0 < v) →
      List.Chain' (· ≤ ·) values → ∀ p ∈ pctChange values, 0 ≤ p := by
  intro values
  induction values with
  | nil => intro _ _ p hp; simp [pctChange] at hp
  | cons a t ih =>
    intro hpos hchain p hp
    cases t with
    | nil => simp [pctChange] at hp
    | cons b t' =>
      have hp' : p ∈ ((b - a) / a) :: pctChange (b :: t') := hp
      obtain ⟨hab, hchain'⟩ := List.chain'_cons.mp hchain
      rcases List.mem_cons.mp hp' with rfl | hmem
      · exact div_nonneg (sub_nonneg.mpr hab)
          (le_of_lt (hpos a (List.mem_cons_self a _)))
      · exact ih (fun v hv => hpos v (List.mem_cons_of_mem a hv)) hchain' p hmem

/-- C4 counterexample: the strictly increasing series `[-2, -1, 1]` has
maximum drawdown `-2`, not 0 — the sign change makes a cumulative growth
factor negative, so the claim fails for arbitrary value series. -/
theorem C4_strictly_increasing_counterexample :
    ((-2 : ℚ) < -1 ∧ (-1 : ℚ) < 1) ∧
      calculate_max_drawdown [-2, -1, 1] = some (-2) ∧
      calculate_max_drawdown [-2, -1, 1] ≠ some 0 := by
  refine ⟨by norm_num, ?_, ?_⟩ <;>
    norm_num [calculate_max_drawdown, pctChange, cumprodFrom, runningMaxFrom,
      max_def, min_def]

/-- C4 (amended): on every series of at least two points the result is
defined and `≤ 0`; on a non-decreasing series of positive values it is
exactly 0; and on the scenario series `[100, 110, 90, 120]` it is
`(90 - 110)/110 = -2/11`. -/
theorem C4_max_drawdown_properties (values : List ℚ) :
    (2 ≤ values.length →
      ∃ q, calculate_max_drawdown values = some q ∧ q ≤ 0) ∧
    (2 ≤ values.length → (∀ v ∈ values, 0 < v) →
      List.Chain' (· ≤ ·) values → calculate_max_drawdown values = some 0) ∧
    calculate_max_drawdown [100, 110, 90, 120] = some (-2/11) := by
  refine ⟨?_, ?_, ?_⟩
  · intro hlen
    match values, hlen with
    | a :: b :: t, _ =>
      simp only [calculate_max_drawdown, pctChange, List.tail_cons,
        List.zipWith_cons_cons, List.map_cons, cumprodFrom, one_mul, sub_self,
        zero_div]
      exact ⟨_, rfl, foldl_min_le _ 0⟩
  · intro hlen hpos hchain
    match values, hlen, hpos, hchain with
    | a :: b :: t, _, hpos, hchain =>
      have hg : ∀ x ∈ (pctChange (a :: b :: t)).map (fun p => 1 + p),
          (1 : ℚ) ≤ x := by
        intro x hx
        obtain ⟨p, hp, rfl⟩ := List.mem_map.mp hx
        have := pctChange_nonneg (a :: b :: t) hpos hchain p hp
        linarith
      have hch : List.Chain' (· ≤ ·)
          (cumprodFrom 1 ((pctChange (a :: b :: t)).map (fun p => 1 + p))) :=
        (cumprodFrom_chain _ 1 one_pos hg).tail
      simp only [pctChange, List.tail_cons, List.zipWith_cons_cons,
        List.map_cons, cumprodFrom, one_mul] at hch
      simp only [calculate_max_drawdown, pctChange, List.tail_cons,
        List.zipWith_cons_cons, List.map_cons, cumprodFrom, one_mul]
      rw [runningMaxFrom_chain _ _ hch]
      simp only [List.zipWith_cons_cons, sub_self, zero_div]
      exact congrArg some (foldl_min_zeros _ (zipWith_drawdown_self _))
  · norm_num [calculate_max_drawdown, pctChange, cumprodFrom, runningMaxFrom,
      max_def, min_def]

/-- C4 witness: the amended theorem applied to `[5, 3]` (drawdown defined and
`≤ 0`) and to the non-decreasing positive series `[1, 2]` (drawdown 0). -/
theorem C4_witness :
    (∃ q, calculate_max_drawdown [(5 : ℚ), 3] = some q ∧ q ≤ 0) ∧
      calculate_max_drawdown [(1 : ℚ), 2] = some 0 :=
  ⟨(C4_max_drawdown_properties [5, 3]).1 (by decide),
   (C4_max_drawdown_properties [1, 2]).2.1 (by decide)
     (by intro v hv; rcases List.mem_cons.mp hv with rfl | hv' <;>
           [norm_num; (rcases List.mem_cons.mp hv' with rfl | h <;>
             [norm_num; simp at h])])
     (List.chain'_cons.mpr ⟨by norm_num, List.chain'_singleton 2⟩)⟩

/-! ## C5: win rate vs the trade ledger -/

/-- C5 (code evaluated at the failing input): the engine executes a matched
round trip in symbol `A` — a `buy` on date 0 (weight 0 → 1/2) followed by a
`sell` on date 1 (weight 1/2 → 1/10), both recorded with lowercase actions —
yet `_count_winning_trades` (which filters on the literal `'SELL'`) counts 0
winning trades, so `win_rate` is 0 despite the matched buy/sell pair.  The
empty ledger also has `win_rate` 0. -/
theorem C5_win_rate_ignores_matched_pairs :
    (execTrades 0 [("A", [10])] (1/100) [("A", 1/2)] []).1
        = [mkTrade 0 "A" (1/2) 0] ∧
      (execTrades 0 [("A", [10])] (1/100) [("A", 1/2)] []).2 = [("A", 1/2)] ∧
      (execTrades 1 [("A", [10])] (1/100) [("A", 1/10)] [("A", 1/2)]).1
        = [mkTrade 1 "A" (1/10) (1/2)] ∧
      List.map (fun t => dictLookup t "action")
          [mkTrade 0 "A" (1/2) 0, mkTrade 1 "A" (1/10) (1/2)]
        = [some (.str "buy"), some (.str "sell")] ∧
      count_winning_trades [mkTrade 0 "A" (1/2) 0, mkTrade 1 "A" (1/10) (1/2)]
        = 0 ∧
      win_rate [mkTrade 0 "A" (1/2) 0, mkTrade 1 "A" (1/10) (1/2)] = 0 ∧
      win_rate ([] : List (List (String × TradeVal))) = 0 := by
  have habs1 : (1 : ℚ)/100 < |1/2| := by rw [abs_of_pos] <;> norm_num
  have habs2 : (1 : ℚ)/100 < |1/10 - 1/2| := by
    have h : (1 : ℚ)/10 - 1/2 = -(2/5) := by norm_num
    rw [h, abs_neg, abs_of_pos] <;> norm_num
  have habs3 : (1 : ℚ)/100 < |2/5| := by rw [abs_of_pos] <;> norm_num
  have hcount : count_winning_trades
      [mkTrade 0 "A" (1/2) 0, mkTrade 1 "A" (1/10) (1/2)] = 0 := by
    norm_num [count_winning_trades, mkTrade, dictLookup]
    simp
  refine ⟨?_, ?_, ?_, ?_, hcount, ?_, ?_⟩
  · simp only [execTrades, List.foldl_cons, List.foldl_nil, execStep,
      hasPriceData, dictLookup, dictGet, Option.getD]
    norm_num [habs1]
  · simp only [execTrades, List.foldl_cons, List.foldl_nil, execStep,
      hasPriceData, dictLookup, dictGet, dictInsert, Option.getD]
    norm_num [habs1]
  · simp only [execTrades, List.foldl_cons, List.foldl_nil, execStep,
      hasPriceData, dictLookup, dictGet, Option.getD]
    norm_num [habs2, habs3]
  · norm_num [mkTrade, dictLookup]
    simp
  · rw [win_rate, hcount]
    norm_num
  · rfl

/-! ## C9: market-cap screening and weighting scenario -/

/-- C9 counterexample: with the source's default `min_market_cap = 1e9`, the
scenario universe `{A: 1000, B: 2000, C: 3000}` is entirely filtered out and
`by_market_cap` with `top_n = 2` (descending) selects nothing, not `{B, C}`. -/
theorem C9_default_min_cap_counterexample :
    by_market_cap [("A", 1000), ("B", 2000), ("C", 3000)] 2 false 1000000000
      = [] := by
  norm_num [by_market_cap]

/-- C9 (amended): on the scenario universe, screening with `top_n = 2`
(descending) and a `min_market_cap` below the caps (here 0) selects `{B, C}`
(as the list `["C", "B"]`, largest first), and market-cap weighting of those
symbols yields `C = 3/5` and `B = 2/5`. -/
theorem C9_scenario_with_low_min_cap :
    by_market_cap [("A", 1000), ("B", 2000), ("C", 3000)] 2 false 0
        = ["C", "B"] ∧
      market_cap_weight ["C", "B"] [("A", 1000), ("B", 2000), ("C", 3000)]
        = [("C", 3/5), ("B", 2/5)] := by
  constructor
  · norm_num [by_market_cap, sortValues, insertSorted]
  · simp [market_cap_weight, dictLookup, dictInsert]
    norm_num

end Backtest
